import Mathlib

/-!
Verification of the WAD archive-index parser (`src/lib.rs`).

The Rust code is shallowly embedded: a file is a list of bytes
(`List Nat`, each byte `< 256`), a Rust `String` is a list of Unicode
scalar values (`List Char`), machine integers are `Nat`/`Int` with
explicit reduction modulo `2^32` / `2^64` where the Rust code performs
conversions, and fallible operations return `Option`/`Except`.
-/

namespace WadRs

/-! ## UTF-8 encoding of Rust strings

A Rust `String` is a sequence of Unicode scalar values stored as UTF-8
bytes; `str.len()` and `str.as_bytes()` act on that byte sequence.
`encodeChar` is the standard UTF-8 encoding of one scalar value,
written with division/remainder by constants. -/

/-- UTF-8 encoding of a single Unicode scalar value. -/
def encodeChar (c : Char) : List Nat :=
  let v := c.toNat
  if v < 0x80 then [v]
  else if v < 0x800 then [0xC0 + v / 64, 0x80 + v % 64]
  else if v < 0x10000 then
    [0xE0 + v / 4096, 0x80 + v / 64 % 64, 0x80 + v % 64]
  else
    [0xF0 + v / 0x40000, 0x80 + v / 4096 % 64, 0x80 + v / 64 % 64, 0x80 + v % 64]

/-- The UTF-8 byte sequence of a Rust string (`str.as_bytes()`);
its length is `str.len()`. -/
def utf8Bytes (s : List Char) : List Nat :=
  (s.map encodeChar).flatten

/-! ## `LumpName` (8 NUL-padded bytes) -/

inductive LumpNameError where
  | TooLarge
deriving DecidableEq

instance {ε α : Type} [DecidableEq ε] [DecidableEq α] : DecidableEq (Except ε α) := fun
  | .error a, .error b =>
    if h : a = b then .isTrue (by rw [h]) else .isFalse (fun hh => h (by injection hh))
  | .error _, .ok _ => .isFalse (fun hh => Except.noConfusion hh)
  | .ok _, .error _ => .isFalse (fun hh => Except.noConfusion hh)
  | .ok a, .ok b =>
    if h : a = b then .isTrue (by rw [h]) else .isFalse (fun hh => h (by injection hh))

/-- `<&mut [u8] as std::io::Write>::write`: copies
`min(data.len(), buf.len())` bytes of `data` over the front of `buf`
and returns the number of bytes written.  This implementation never
returns an I/O error (the `Except` error case is unreachable). -/
def sliceWrite (buf data : List Nat) : Except Unit (List Nat × Nat) :=
  let n := min data.length buf.length
  .ok (data.take n ++ buf.drop n, n)

/-- `LumpName::from_string`.  The `none` result models a panic of the
`.unwrap()` on the slice write; `some` carries the Rust `Result`.
A `LumpName` is its 8-byte buffer (`List Nat` of length 8). -/
def from_string (s : List Char) : Option (Except LumpNameError (List Nat)) :=
  let bytes := utf8Bytes s
  if 8 < bytes.length then some (.error .TooLarge)
  else
    match sliceWrite (List.replicate 8 0) bytes with
    | .ok (buf, _) => some (.ok buf)
    | .error _ => none

/-- The replacement character U+FFFD substituted by
`String::from_utf8_lossy` for invalid byte sequences. -/
def replChar : Char := Char.ofNat 0xFFFD

/-- A UTF-8 continuation byte (`0x80..=0xBF`). -/
def isCont (b : Nat) : Prop := 0x80 ≤ b ∧ b < 0xC0

instance (b : Nat) : Decidable (isCont b) := by
  unfold isCont; infer_instance

/-- Admissible second byte of a three-byte sequence, given its first
byte (`0xE0` excludes overlong forms, `0xED` excludes surrogates). -/
def validB1For3 (b0 b1 : Nat) : Prop :=
  if b0 = 0xE0 then 0xA0 ≤ b1 ∧ b1 < 0xC0
  else if b0 = 0xED then 0x80 ≤ b1 ∧ b1 < 0xA0
  else isCont b1

instance (b0 b1 : Nat) : Decidable (validB1For3 b0 b1) := by
  unfold validB1For3; infer_instance

/-- Admissible second byte of a four-byte sequence, given its first
byte (`0xF0` excludes overlong forms, `0xF4` bounds scalars below
`0x110000`). -/
def validB1For4 (b0 b1 : Nat) : Prop :=
  if b0 = 0xF0 then 0x90 ≤ b1 ∧ b1 < 0xC0
  else if b0 = 0xF4 then 0x80 ≤ b1 ∧ b1 < 0x90
  else isCont b1

instance (b0 b1 : Nat) : Decidable (validB1For4 b0 b1) := by
  unfold validB1For4; infer_instance

/-- `String::from_utf8_lossy`: decodes a byte sequence as UTF-8,
substituting `U+FFFD` for each maximal invalid subpart (the byte
ranges are those of Rust's `core::str` UTF-8 validation; decoding
resumes at the first byte that breaks a sequence). -/
def utf8DecodeLossy : List Nat → List Char
  | [] => []
  | b0 :: rest =>
    if b0 < 0x80 then
      Char.ofNat b0 :: utf8DecodeLossy rest
    else if b0 < 0xC2 then
      replChar :: utf8DecodeLossy rest
    else if b0 < 0xE0 then
      match rest with
      | [] => [replChar]
      | b1 :: rest1 =>
        if isCont b1 then
          Char.ofNat ((b0 - 0xC0) * 64 + (b1 - 0x80)) :: utf8DecodeLossy rest1
        else
          replChar :: utf8DecodeLossy (b1 :: rest1)
    else if b0 < 0xF0 then
      match rest with
      | [] => [replChar]
      | b1 :: rest1 =>
        if validB1For3 b0 b1 then
          match rest1 with
          | [] => [replChar]
          | b2 :: rest2 =>
            if isCont b2 then
              Char.ofNat ((b0 - 0xE0) * 4096 + (b1 - 0x80) * 64 + (b2 - 0x80)) ::
                utf8DecodeLossy rest2
            else
              replChar :: utf8DecodeLossy (b2 :: rest2)
        else
          replChar :: utf8DecodeLossy (b1 :: rest1)
    else if b0 < 0xF5 then
      match rest with
      | [] => [replChar]
      | b1 :: rest1 =>
        if validB1For4 b0 b1 then
          match rest1 with
          | [] => [replChar]
          | b2 :: rest2 =>
            if isCont b2 then
              match rest2 with
              | [] => [replChar]
              | b3 :: rest3 =>
                if isCont b3 then
                  Char.ofNat ((b0 - 0xF0) * 0x40000 + (b1 - 0x80) * 4096 +
                      (b2 - 0x80) * 64 + (b3 - 0x80)) ::
                    utf8DecodeLossy rest3
                else
                  replChar :: utf8DecodeLossy (b3 :: rest3)
            else
              replChar :: utf8DecodeLossy (b2 :: rest2)
        else
          replChar :: utf8DecodeLossy (b1 :: rest1)
    else
      replChar :: utf8DecodeLossy rest

/-- Number of leading occurrences of `p` (how many characters
`str::trim_matches` removes from one end). -/
def matchCount (p : Char) : List Char → Nat
  | [] => 0
  | c :: rest => if c = p then matchCount p rest + 1 else 0

/-- `str::trim_matches` with a `char` pattern: removes all leading and
all trailing occurrences of `p`. -/
def trimMatchesChar (p : Char) (s : List Char) : List Char :=
  let t := s.drop (matchCount p s)
  t.take (t.length - matchCount p t.reverse)

/-- `LumpName::to_string` (`ToString` impl): lossy-decode the 8 bytes,
then `trim_matches(char::from(0))`. -/
def to_string (name : List Nat) : List Char :=
  trimMatchesChar (Char.ofNat 0) (utf8DecodeLossy name)

/-! ## The archive data model and loader (`Wad::from_file_path`)

The file to load is given by its byte content; opening the path is
I/O and is modeled away (`FailedToOpenFile` is kept in the error type
but never produced by the embedding). -/

/-- One directory record of the catalog.  `start`/`size`/`real_size`
are the Rust `i32` newtypes `Location`/`Size`; `kind`/`compression`
are single-byte tags; `name` is the 8-byte `LumpName` buffer. -/
structure Entry where
  start : Int
  size : Int
  real_size : Int
  kind : Nat
  compression : Nat
  padding : Int
  name : List Nat
deriving DecidableEq

inductive WadDecodeError where
  | FailedToOpenFile
  | FailedToReadHeader
  | CouldNotDecodeHeader
  | FailedToReadDirectory
  | CouldNotDecodeDirectory
deriving DecidableEq

/-- The archive catalog: 4 signature bytes and the entry list. -/
structure Wad where
  signature : List Nat
  directory : List Entry
deriving DecidableEq

/-- Little-endian `u32` from four bytes. -/
def u32ofLE (b0 b1 b2 b3 : Nat) : Nat :=
  b0 % 256 + 256 * (b1 % 256) + 65536 * (b2 % 256) + 16777216 * (b3 % 256)

/-- Reinterpret a `u32` value as an `i32` (two's complement). -/
def i32ofU32 (n : Nat) : Int :=
  if n < 2147483648 then (n : Int) else (n : Int) - 4294967296

/-- Rust `as u64` on an `i32` value: sign extension, i.e. reduction
modulo `2^64`. -/
def u64ofI32 (x : Int) : Nat :=
  (x % 18446744073709551616).toNat

/-- Byte of a file at an index (only used at in-bounds indices). -/
def byteAt (l : List Nat) (i : Nat) : Nat := l.getD i 0

/-- A positioned exact read (`read_exact` / `read_exact_at`): returns
the `len` bytes starting at `off`, or fails on a short read. -/
def readExactAt (file : List Nat) (off len : Nat) : Option (List Nat) :=
  if off + len ≤ file.length then some ((file.drop off).take len) else none

/-- The packed 12-byte header record. -/
structure RawHeader where
  signature : List Nat
  count : Int
  dir_loc : Int
deriving DecidableEq

/-- Reinterpretation of the header buffer as `RawHeader`
(`align_to::<RawHeader>().get(0)`): the target type is packed with
alignment 1 and size 12, so the reinterpreted middle slice has
`len / 12` elements and `get(0)` fails exactly when fewer than 12
bytes are present. -/
def decodeHeader (b : List Nat) : Option RawHeader :=
  if 12 ≤ b.length then
    some ⟨b.take 4,
      i32ofU32 (u32ofLE (byteAt b 4) (byteAt b 5) (byteAt b 6) (byteAt b 7)),
      i32ofU32 (u32ofLE (byteAt b 8) (byteAt b 9) (byteAt b 10) (byteAt b 11))⟩
  else none

/-- The packed 16-byte directory record. -/
structure RawEntry where
  file_pos : Int
  size : Int
  name : List Nat
deriving DecidableEq

/-- Reinterpretation of an entry buffer as `RawEntry` (packed,
alignment 1, size 16), as for `decodeHeader`. -/
def decodeEntry (b : List Nat) : Option RawEntry :=
  if 16 ≤ b.length then
    some ⟨i32ofU32 (u32ofLE (byteAt b 0) (byteAt b 1) (byteAt b 2) (byteAt b 3)),
          i32ofU32 (u32ofLE (byteAt b 4) (byteAt b 5) (byteAt b 6) (byteAt b 7)),
          (b.drop 8).take 8⟩
  else none

def ENTRY_SIZE : Nat := 16

/-- Offset of the `i`-th directory read:
`i * ENTRY_SIZE as u64 + (raw_header.dir_loc as u64)` in `u64`
arithmetic (wrapping). -/
def entryOffset (dirLoc i : Nat) : Nat :=
  ((i * ENTRY_SIZE) % 18446744073709551616 + dirLoc) % 18446744073709551616

/-- The `Entry` pushed for a decoded raw entry: `real_size` mirrors
`size`, and `kind`/`compression`/`padding` are filled with zeros. -/
def mkEntry (re : RawEntry) : Entry :=
  ⟨re.file_pos, re.size, re.size, 0, 0, 0, re.name⟩

/-- The directory loop of `from_file_path`: `r` remaining iterations
starting at loop index `i`; each iteration reads 16 bytes at
`entryOffset dirLoc i`, reinterprets them, and appends the entry.
The first failure aborts the whole load. -/
def loadDir (file : List Nat) (dirLoc : Nat) :
    Nat → Nat → Except WadDecodeError (List Entry)
  | _, 0 => .ok []
  | i, r + 1 =>
    match readExactAt file (entryOffset dirLoc i) ENTRY_SIZE with
    | none => .error .FailedToReadDirectory
    | some eb =>
      match decodeEntry eb with
      | none => .error .CouldNotDecodeDirectory
      | some re =>
        match loadDir file dirLoc (i + 1) r with
        | .error e => .error e
        | .ok rest => .ok (mkEntry re :: rest)

/-- `Wad::from_file_path`, with the opened file given by its byte
content: read the 12 header bytes, reinterpret them, then run the
directory loop for `raw_header.count as u64` iterations. -/
def from_file_path (file : List Nat) : Except WadDecodeError Wad :=
  match readExactAt file 0 12 with
  | none => .error .FailedToReadHeader
  | some hb =>
    match decodeHeader hb with
    | none => .error .CouldNotDecodeHeader
    | some h =>
      match loadDir file (u64ofI32 h.dir_loc) 0 (u64ofI32 h.count) with
      | .error e => .error e
      | .ok dir => .ok ⟨h.signature, dir⟩

/-! ### Direct descriptions of the header fields and entry layout,
used to state the claims. -/

/-- The header `count` field: the little-endian `i32` at bytes 4..8. -/
def headerCount (file : List Nat) : Int :=
  i32ofU32 (u32ofLE (byteAt file 4) (byteAt file 5) (byteAt file 6) (byteAt file 7))

/-- The header `directory_offset` field: the little-endian `i32` at
bytes 8..12. -/
def headerDirLoc (file : List Nat) : Int :=
  i32ofU32 (u32ofLE (byteAt file 8) (byteAt file 9) (byteAt file 10) (byteAt file 11))

/-- The number of directory iterations the loader performs. -/
def countN (file : List Nat) : Nat := u64ofI32 (headerCount file)

/-- The directory base offset used by the loader. -/
def dirLocN (file : List Nat) : Nat := u64ofI32 (headerDirLoc file)

/-- The entry the on-disk layout prescribes at directory index `i`:
little-endian `i32` file position at bytes 0..4 of the record,
little-endian `i32` size at bytes 4..8, name bytes 8..16, with the
record starting at `entryOffset d i`. -/
def specEntry (file : List Nat) (d i : Nat) : Entry :=
  let o := entryOffset d i
  { start := i32ofU32 (u32ofLE (byteAt file o) (byteAt file (o + 1))
      (byteAt file (o + 2)) (byteAt file (o + 3)))
    size := i32ofU32 (u32ofLE (byteAt file (o + 4)) (byteAt file (o + 5))
      (byteAt file (o + 6)) (byteAt file (o + 7)))
    real_size := i32ofU32 (u32ofLE (byteAt file (o + 4)) (byteAt file (o + 5))
      (byteAt file (o + 6)) (byteAt file (o + 7)))
    kind := 0
    compression := 0
    padding := 0
    name := (file.drop (o + 8)).take 8 }

/-! ## Trimming lemmas for `to_string` -/

/-- `dropWhile` equals dropping the leading match count. -/
lemma dropWhile_eq_drop_matchCount (p : Char) (s : List Char) :
    s.dropWhile (fun c => c == p) = s.drop (matchCount p s) := by
  induction s with
  | nil => rfl
  | cons c t ih =>
    by_cases h : c = p
    · simp [List.dropWhile_cons, matchCount, h, ih]
    · simp [List.dropWhile_cons, matchCount, h]

/-- `trimMatchesChar` is `dropWhile` applied at both ends. -/
lemma trimMatchesChar_eq (p : Char) (s : List Char) :
    trimMatchesChar p s =
      ((s.dropWhile (fun c => c == p)).reverse.dropWhile (fun c => c == p)).reverse := by
  unfold trimMatchesChar
  rw [dropWhile_eq_drop_matchCount p s, dropWhile_eq_drop_matchCount,
    List.reverse_drop, List.reverse_reverse, List.length_reverse]

lemma dropWhile_replicate_append (p : Char) (k : Nat) (t : List Char) :
    (List.replicate k p ++ t).dropWhile (fun c => c == p) =
      t.dropWhile (fun c => c == p) := by
  induction k with
  | zero => simp
  | succ n ih => simp [List.replicate_succ, List.dropWhile_cons, ih]

lemma dropWhile_eq_self_of_forall (p : Char) (l : List Char)
    (h : ∀ c ∈ l, ¬ c = p) : l.dropWhile (fun c => c == p) = l := by
  cases l with
  | nil => rfl
  | cons c t => rw [List.dropWhile_cons]; simp [h c (by simp)]

/-- Trimming `p` from both ends of a `p`-free list padded on the right
with `p` recovers the list. -/
lemma trimMatchesChar_append_replicate (p : Char) (s : List Char) (k : Nat)
    (hs : ∀ c ∈ s, ¬ c = p) :
    trimMatchesChar p (s ++ List.replicate k p) = s := by
  rw [trimMatchesChar_eq]
  cases s with
  | nil =>
    have h0 : (List.replicate k p ++ ([] : List Char)).dropWhile (fun c => c == p) =
        ([] : List Char).dropWhile (fun c => c == p) :=
      dropWhile_replicate_append p k []
    simp only [List.append_nil, List.dropWhile_nil] at h0
    simp [h0]
  | cons c s' =>
    have hc : (c == p) = false := by
      simp only [beq_eq_false_iff_ne, ne_eq]
      exact hs c (by simp)
    rw [List.cons_append, List.dropWhile_cons, hc]
    simp only [Bool.false_eq_true, if_false]
    have hrev : (c :: (s' ++ List.replicate k p)).reverse =
        List.replicate k p ++ (s'.reverse ++ [c]) := by
      simp [List.reverse_append]
    rw [hrev, dropWhile_replicate_append,
      dropWhile_eq_self_of_forall p (s'.reverse ++ [c]) ?_]
    · simp
    · intro x hx
      rcases List.mem_append.mp hx with hx' | hx'
      · exact hs x (by simp [List.mem_reverse.mp hx'])
      · simp only [List.mem_singleton] at hx'
        subst hx'
        exact hs x (by simp)

/-! ## The lossy decoder inverts UTF-8 encoding -/

set_option maxRecDepth 8000

lemma decode_lt80 (v : Nat) (t : List Nat) (h : v < 0x80) :
    utf8DecodeLossy (v :: t) = Char.ofNat v :: utf8DecodeLossy t := by
  rw [utf8DecodeLossy.eq_def]
  simp [h]

lemma decode_2byte (v : Nat) (t : List Nat) (h1 : 0x80 ≤ v) (h2 : v < 0x800) :
    utf8DecodeLossy ((0xC0 + v / 64) :: (0x80 + v % 64) :: t) =
      Char.ofNat v :: utf8DecodeLossy t := by
  have e0 : ¬ (0xC0 + v / 64 < 128) := by omega
  have e1 : ¬ (0xC0 + v / 64 < 194) := by omega
  have e2 : 0xC0 + v / 64 < 224 := by omega
  have e3 : isCont (0x80 + v % 64) := by unfold isCont; omega
  rw [utf8DecodeLossy.eq_def]
  simp only [e0, e1, e2, e3, if_true, if_false, ite_true, ite_false]
  congr 2
  omega

lemma decode_3byte (v : Nat) (t : List Nat) (h1 : 0x800 ≤ v) (h2 : v < 0x10000)
    (hs : v < 0xD800 ∨ 0xDFFF < v) :
    utf8DecodeLossy ((0xE0 + v / 4096) :: (0x80 + v / 64 % 64) :: (0x80 + v % 64) :: t) =
      Char.ofNat v :: utf8DecodeLossy t := by
  have e0 : ¬ (0xE0 + v / 4096 < 128) := by omega
  have e1 : ¬ (0xE0 + v / 4096 < 194) := by omega
  have e2 : ¬ (0xE0 + v / 4096 < 224) := by omega
  have e3 : 0xE0 + v / 4096 < 240 := by omega
  have e4 : validB1For3 (0xE0 + v / 4096) (0x80 + v / 64 % 64) := by
    rcases hs with hs | hs <;> (unfold validB1For3 isCont; split_ifs <;> omega)
  have e5 : isCont (0x80 + v % 64) := by unfold isCont; omega
  rw [utf8DecodeLossy.eq_def]
  simp only [e0, e1, e2, e3, e4, e5, if_true, if_false, ite_true, ite_false]
  congr 2
  omega

lemma decode_4byte (v : Nat) (t : List Nat) (h1 : 0x10000 ≤ v) (h2 : v < 0x110000) :
    utf8DecodeLossy ((0xF0 + v / 0x40000) :: (0x80 + v / 4096 % 64) ::
        (0x80 + v / 64 % 64) :: (0x80 + v % 64) :: t) =
      Char.ofNat v :: utf8DecodeLossy t := by
  have e0 : ¬ (0xF0 + v / 262144 < 128) := by omega
  have e1 : ¬ (0xF0 + v / 262144 < 194) := by omega
  have e2 : ¬ (0xF0 + v / 262144 < 224) := by omega
  have e3 : ¬ (0xF0 + v / 262144 < 240) := by omega
  have e4 : 0xF0 + v / 262144 < 245 := by omega
  have e5 : validB1For4 (0xF0 + v / 262144) (0x80 + v / 4096 % 64) := by
    unfold validB1For4 isCont; split_ifs <;> omega
  have e6 : isCont (0x80 + v / 64 % 64) := by unfold isCont; omega
  have e7 : isCont (0x80 + v % 64) := by unfold isCont; omega
  rw [utf8DecodeLossy.eq_def]
  simp only [e0, e1, e2, e3, e4, e5, e6, e7, if_true, if_false, ite_true, ite_false]
  congr 2
  omega

/-- Decoding the encoding of one scalar value recovers it, whatever
bytes follow. -/
lemma utf8DecodeLossy_encodeChar (c : Char) (t : List Nat) :
    utf8DecodeLossy (encodeChar c ++ t) = c :: utf8DecodeLossy t := by
  have hv : c.toNat < 55296 ∨ 57343 < c.toNat ∧ c.toNat < 1114112 := c.valid
  unfold encodeChar
  by_cases h1 : c.toNat < 0x80
  · simp only [if_pos h1, List.cons_append, List.nil_append]
    rw [decode_lt80 _ _ h1, Char.ofNat_toNat]
  · by_cases h2 : c.toNat < 0x800
    · simp only [if_neg h1, if_pos h2, List.cons_append, List.nil_append]
      rw [decode_2byte _ _ (by omega) h2, Char.ofNat_toNat]
    · by_cases h3 : c.toNat < 0x10000
      · have hs : c.toNat < 0xD800 ∨ 0xDFFF < c.toNat := by omega
        simp only [if_neg h1, if_neg h2, if_pos h3, List.cons_append, List.nil_append]
        rw [decode_3byte _ _ (by omega) h3 hs, Char.ofNat_toNat]
      · have h4 : c.toNat < 0x110000 := by omega
        simp only [if_neg h1, if_neg h2, if_neg h3, List.cons_append, List.nil_append]
        rw [decode_4byte _ _ (by omega) h4, Char.ofNat_toNat]

/-- Decoding the encoding of a string recovers it, whatever bytes
follow. -/
lemma utf8DecodeLossy_utf8Bytes (s : List Char) (t : List Nat) :
    utf8DecodeLossy (utf8Bytes s ++ t) = s ++ utf8DecodeLossy t := by
  induction s with
  | nil => simp [utf8Bytes]
  | cons c s' ih =>
    have hb : utf8Bytes (c :: s') = encodeChar c ++ utf8Bytes s' := by
      simp [utf8Bytes]
    rw [hb, List.append_assoc, utf8DecodeLossy_encodeChar, ih, List.cons_append]

lemma utf8DecodeLossy_replicate (k : Nat) :
    utf8DecodeLossy (List.replicate k 0) = List.replicate k (Char.ofNat 0) := by
  induction k with
  | zero => rfl
  | succ n ih =>
    rw [List.replicate_succ, decode_lt80 _ _ (by omega), ih, List.replicate_succ]

/-! ## Claims about `LumpName` -/

/-- What the claim says `to_string` does after decoding: strip only
the trailing NUL characters. -/
def stripTrailingNuls (s : List Char) : List Char :=
  (s.reverse.dropWhile (fun c => c == Char.ofNat 0)).reverse

/-- The amended behavior: strip leading and trailing NUL characters
(interior NULs are preserved). -/
def stripLeadingTrailingNuls (s : List Char) : List Char :=
  stripTrailingNuls (s.dropWhile (fun c => c == Char.ofNat 0))

/-- C4 (counterexample): on the 8-byte buffer `[0, 65, 0, …, 0]` the
code's `to_string` does not merely strip trailing NULs — the leading
NUL is stripped as well (`trim_matches` trims both ends), so the claim
as stated fails at this input. -/
theorem to_string_not_trailing_only :
    ¬ (to_string [0, 65, 0, 0, 0, 0, 0, 0] =
       stripTrailingNuls (utf8DecodeLossy [0, 65, 0, 0, 0, 0, 0, 0])) := by
  decide

/-- C4 (amended): for every 8-byte buffer, `to_string` lossy-decodes
the bytes (never failing) and then strips the leading and trailing NUL
characters; interior NULs are preserved. -/
theorem to_string_trims_both_ends (name : List Nat) (_h : name.length = 8) :
    to_string name = stripLeadingTrailingNuls (utf8DecodeLossy name) := by
  unfold to_string stripLeadingTrailingNuls stripTrailingNuls
  rw [trimMatchesChar_eq]

/-- Witness for `to_string_trims_both_ends` at the buffer
`[0, 65, 0, …, 0]`. -/
theorem to_string_trims_both_ends_witness :
    ([0, 65, 0, 0, 0, 0, 0, 0] : List Nat).length = 8 ∧
    to_string [0, 65, 0, 0, 0, 0, 0, 0] =
      stripLeadingTrailingNuls (utf8DecodeLossy [0, 65, 0, 0, 0, 0, 0, 0]) :=
  ⟨by decide, to_string_trims_both_ends _ (by decide)⟩

/-- C9: `from_string` never panics — the unwrapped slice write always
succeeds, so the embedding never reaches the panic (`none`) outcome,
for every input string. -/
theorem from_string_never_panics (s : List Char) : (from_string s).isSome := by
  unfold from_string sliceWrite
  by_cases h : 8 < (utf8Bytes s).length <;> simp [h]

/-- C7: `from_string s` fails with `TooLarge` exactly when the UTF-8
byte length of `s` exceeds 8, and on success the buffer is `s`'s bytes
left-aligned in 8 bytes with a zero-filled remainder. -/
theorem from_string_too_large_iff (s : List Char) :
    (from_string s = some (.error .TooLarge) ↔ 8 < (utf8Bytes s).length) ∧
    (∀ nm, from_string s = some (.ok nm) →
      nm = utf8Bytes s ++ List.replicate (8 - (utf8Bytes s).length) 0) := by
  unfold from_string sliceWrite
  by_cases h : 8 < (utf8Bytes s).length
  · simp [h]
  · have hmin : min (utf8Bytes s).length 8 = (utf8Bytes s).length := by omega
    simp only [h, if_false]
    constructor
    · simp
    · intro nm hnm
      simp only [Option.some.injEq, Except.ok.injEq] at hnm
      rw [← hnm]
      simp only [List.length_replicate]
      rw [hmin, List.take_length, List.drop_replicate]

/-- C3: for every string of UTF-8 byte length at most 8 containing no
NUL byte, `from_string` succeeds and `to_string` of the result equals
the original string (zero padding is invisible in the round trip). -/
theorem from_string_to_string_roundtrip (s : List Char)
    (hlen : (utf8Bytes s).length ≤ 8)
    (hnul : ¬ (0 ∈ utf8Bytes s)) :
    ∃ nm, from_string s = some (.ok nm) ∧ to_string nm = s := by
  have hno : ∀ c ∈ s, ¬ c = Char.ofNat 0 := by
    intro c hc hceq
    apply hnul
    subst hceq
    have h0 : (0 : Nat) ∈ encodeChar (Char.ofNat 0) := by decide
    unfold utf8Bytes
    exact List.mem_flatten.mpr ⟨encodeChar (Char.ofNat 0), List.mem_map_of_mem _ hc, h0⟩
  refine ⟨utf8Bytes s ++ List.replicate (8 - (utf8Bytes s).length) 0, ?_, ?_⟩
  · unfold from_string sliceWrite
    have h8 : ¬ (8 < (utf8Bytes s).length) := by omega
    have hmin : min (utf8Bytes s).length (List.replicate 8 (0 : Nat)).length =
        (utf8Bytes s).length := by
      simp only [List.length_replicate]; omega
    simp only [h8, if_false, hmin, List.take_length, List.drop_replicate]
  · unfold to_string
    rw [utf8DecodeLossy_utf8Bytes, utf8DecodeLossy_replicate]
    exact trimMatchesChar_append_replicate _ s _ hno

/-- Witness for `from_string_to_string_roundtrip` on the string
`"E1M1"` of the reference test. -/
theorem from_string_to_string_roundtrip_witness :
    (utf8Bytes ['E', '1', 'M', '1']).length ≤ 8 ∧
    ¬ (0 ∈ utf8Bytes ['E', '1', 'M', '1']) ∧
    ∃ nm, from_string ['E', '1', 'M', '1'] = some (.ok nm) ∧
      to_string nm = ['E', '1', 'M', '1'] :=
  ⟨by decide, by decide, from_string_to_string_roundtrip _ (by decide) (by decide)⟩

/-- Witness for `from_string_too_large_iff`: a 9-byte string fails
with `TooLarge`, and the 8-byte result buffer for an 8-byte string is
exactly the bytes with no padding. -/
theorem from_string_too_large_iff_witness :
    from_string ['W', 'A', 'D', 'W', 'A', 'D', 'W', 'A', 'D'] = some (.error .TooLarge) ∧
    ([87, 65, 68, 87, 65, 68, 87, 65] : List Nat) =
      utf8Bytes ['W', 'A', 'D', 'W', 'A', 'D', 'W', 'A'] ++
        List.replicate (8 - (utf8Bytes ['W', 'A', 'D', 'W', 'A', 'D', 'W', 'A']).length) 0 :=
  ⟨(from_string_too_large_iff _).1.mpr (by decide),
   (from_string_too_large_iff _).2 _ (by decide)⟩

/-! ## Loader lemmas -/

lemma byteAt_take (l : List Nat) (n i : Nat) (h : i < n) :
    byteAt (l.take n) i = byteAt l i := by
  unfold byteAt
  rw [List.getD_eq_getElem?_getD, List.getD_eq_getElem?_getD, List.getElem?_take,
    if_pos h]

lemma byteAt_drop (l : List Nat) (o i : Nat) :
    byteAt (l.drop o) i = byteAt l (o + i) := by
  unfold byteAt
  rw [List.getD_eq_getElem?_getD, List.getD_eq_getElem?_getD, List.getElem?_drop]

lemma byteAt_slice (l : List Nat) (o n i : Nat) (h : i < n) :
    byteAt ((l.drop o).take n) i = byteAt l (o + i) := by
  rw [byteAt_take _ _ _ h, byteAt_drop]

/-- Reading and reinterpreting an entry record at a readable offset
yields exactly the fields of the on-disk layout. -/
lemma decodeEntry_slice (file : List Nat) (o : Nat) (h : o + 16 ≤ file.length) :
    decodeEntry ((file.drop o).take 16) =
      some ⟨i32ofU32 (u32ofLE (byteAt file o) (byteAt file (o + 1))
              (byteAt file (o + 2)) (byteAt file (o + 3))),
            i32ofU32 (u32ofLE (byteAt file (o + 4)) (byteAt file (o + 5))
              (byteAt file (o + 6)) (byteAt file (o + 7))),
            (file.drop (o + 8)).take 8⟩ := by
  unfold decodeEntry
  have hlen : ((file.drop o).take 16).length = 16 := by
    rw [List.length_take, List.length_drop]
    omega
  rw [if_pos (by omega)]
  rw [byteAt_slice file o 16 0 (by omega), byteAt_slice file o 16 1 (by omega),
    byteAt_slice file o 16 2 (by omega), byteAt_slice file o 16 3 (by omega),
    byteAt_slice file o 16 4 (by omega), byteAt_slice file o 16 5 (by omega),
    byteAt_slice file o 16 6 (by omega), byteAt_slice file o 16 7 (by omega),
    List.drop_take, List.drop_drop]
  norm_num

/-- The directory loop succeeds when every remaining read is in
bounds, and returns exactly the on-disk entries in on-disk order. -/
lemma loadDir_ok (file : List Nat) (d : Nat) :
    ∀ r i, (∀ j, j < r → entryOffset d (i + j) + 16 ≤ file.length) →
      loadDir file d i r = .ok ((List.range r).map (fun j => specEntry file d (i + j))) := by
  intro r
  induction r with
  | zero => intro i _; simp [loadDir]
  | succ n ih =>
    intro i h
    have h0 : entryOffset d i + 16 ≤ file.length := by
      have := h 0 (by omega)
      simpa using this
    unfold loadDir
    have hread : readExactAt file (entryOffset d i) ENTRY_SIZE =
        some ((file.drop (entryOffset d i)).take 16) := by
      unfold readExactAt ENTRY_SIZE
      rw [if_pos (by omega)]
    simp only [hread, decodeEntry_slice file _ h0,
      ih (i + 1) (fun j hj => by
        have := h (j + 1) (by omega)
        have harith : i + (j + 1) = i + 1 + j := by omega
        rwa [harith] at this)]
    have hcons : (List.range (n + 1)).map (fun j => specEntry file d (i + j)) =
        specEntry file d i :: (List.range n).map (fun j => specEntry file d (i + 1 + j)) := by
      rw [List.range_succ_eq_map, List.map_cons, List.map_map]
      refine congrArg₂ _ (by simp) ?_
      refine List.map_congr_left (fun a _ => ?_)
      simp only [Function.comp_apply, Nat.succ_eq_add_one]
      refine congrArg _ (by omega)
    rw [hcons]
    rfl

/-- The directory loop fails with `FailedToReadDirectory` as soon as
any remaining read is out of bounds. -/
lemma loadDir_fails (file : List Nat) (d : Nat) :
    ∀ r i, (∃ j, j < r ∧ file.length < entryOffset d (i + j) + 16) →
      loadDir file d i r = .error .FailedToReadDirectory := by
  intro r
  induction r with
  | zero =>
    rintro i ⟨j, hj, _⟩
    omega
  | succ n ih =>
    rintro i ⟨j, hj, hfail⟩
    unfold loadDir
    by_cases h0 : entryOffset d i + 16 ≤ file.length
    · have hread : readExactAt file (entryOffset d i) ENTRY_SIZE =
          some ((file.drop (entryOffset d i)).take 16) := by
        unfold readExactAt ENTRY_SIZE
        rw [if_pos (by omega)]
      have hj0 : j ≠ 0 := by
        intro hje
        subst hje
        simp only [Nat.add_zero] at hfail
        omega
      simp only [hread, decodeEntry_slice file _ h0,
        ih (i + 1) ⟨j - 1, by omega, by
          have harith : i + 1 + (j - 1) = i + j := by omega
          rwa [harith]⟩]
    · unfold readExactAt ENTRY_SIZE
      rw [if_neg (by omega)]

/-- The only error the directory loop ever produces is
`FailedToReadDirectory` (the decode branch is unreachable). -/
lemma loadDir_error_eq (file : List Nat) (d : Nat) :
    ∀ r i e, loadDir file d i r = .error e → e = .FailedToReadDirectory := by
  intro r
  induction r with
  | zero => intro i e h; simp [loadDir] at h
  | succ n ih =>
    intro i e h
    unfold loadDir at h
    by_cases h0 : entryOffset d i + 16 ≤ file.length
    · have hread : readExactAt file (entryOffset d i) ENTRY_SIZE =
          some ((file.drop (entryOffset d i)).take 16) := by
        unfold readExactAt ENTRY_SIZE
        rw [if_pos (by omega)]
      simp only [hread, decodeEntry_slice file _ h0] at h
      cases hld : loadDir file d (i + 1) n with
      | error e' =>
        rw [hld] at h
        injection h with h'
        rw [← h']
        exact ih (i + 1) e' hld
      | ok l =>
        rw [hld] at h
        exact Except.noConfusion h
    · simp only [show readExactAt file (entryOffset d i) ENTRY_SIZE = none from by
        unfold readExactAt ENTRY_SIZE; rw [if_neg (by omega)]] at h
      injection h with h'
      exact h'.symm

/-- Every entry the directory loop produces is `mkEntry`-shaped. -/
lemma loadDir_mem (file : List Nat) (d : Nat) :
    ∀ r i l, loadDir file d i r = .ok l → ∀ en ∈ l, ∃ re, en = mkEntry re := by
  intro r
  induction r with
  | zero =>
    intro i l h en hen
    simp only [loadDir] at h
    injection h with h'
    rw [← h'] at hen
    simp at hen
  | succ n ih =>
    intro i l h en hen
    unfold loadDir at h
    by_cases h0 : entryOffset d i + 16 ≤ file.length
    · simp only [show readExactAt file (entryOffset d i) ENTRY_SIZE =
          some ((file.drop (entryOffset d i)).take 16) from by
          unfold readExactAt ENTRY_SIZE; rw [if_pos (by omega)],
        decodeEntry_slice file _ h0] at h
      cases hld : loadDir file d (i + 1) n with
      | error e' => rw [hld] at h; exact Except.noConfusion h
      | ok l' =>
        rw [hld] at h
        injection h with h'
        rw [← h'] at hen
        rcases List.mem_cons.mp hen with hen' | hen'
        · exact ⟨_, hen'⟩
        · exact ih (i + 1) l' hld en hen'
    · simp only [show readExactAt file (entryOffset d i) ENTRY_SIZE = none from by
        unfold readExactAt ENTRY_SIZE; rw [if_neg (by omega)]] at h
      exact Except.noConfusion h

/-- Reading and reinterpreting the header of a file of at least 12
bytes yields the verbatim signature and the two little-endian `i32`
fields. -/
lemma decodeHeader_slice (file : List Nat) (h : 12 ≤ file.length) :
    decodeHeader ((file.drop 0).take 12) =
      some ⟨file.take 4, headerCount file, headerDirLoc file⟩ := by
  unfold decodeHeader headerCount headerDirLoc
  rw [List.drop_zero]
  have hlen : (file.take 12).length = 12 := by
    rw [List.length_take]
    omega
  rw [if_pos (by omega)]
  rw [byteAt_take file 12 4 (by omega), byteAt_take file 12 5 (by omega),
    byteAt_take file 12 6 (by omega), byteAt_take file 12 7 (by omega),
    byteAt_take file 12 8 (by omega), byteAt_take file 12 9 (by omega),
    byteAt_take file 12 10 (by omega), byteAt_take file 12 11 (by omega),
    List.take_take]
  norm_num

/-- `from_file_path` on a file with a readable header is the directory
loop, with the first four bytes stored verbatim as the signature. -/
lemma from_file_path_eq (file : List Nat) (h12 : 12 ≤ file.length) :
    from_file_path file =
      match loadDir file (dirLocN file) 0 (countN file) with
      | .error e => .error e
      | .ok dir => .ok ⟨file.take 4, dir⟩ := by
  unfold from_file_path
  simp only [show readExactAt file 0 12 = some ((file.drop 0).take 12) from by
    unfold readExactAt; rw [if_pos (by omega)], decodeHeader_slice file h12]
  rfl

/-- A decoded `i32` field lies in the `i32` range. -/
lemma headerCount_range (file : List Nat) :
    -2147483648 ≤ headerCount file ∧ headerCount file < 2147483648 := by
  unfold headerCount i32ofU32 u32ofLE
  split_ifs <;> omega

lemma u64ofI32_lt (x : Int) : u64ofI32 x < 18446744073709551616 := by
  unfold u64ofI32
  omega

/-! ## Claims about the loader -/

/-- C1: a file whose first 12 bytes are present, whose header count
field is non-negative, and whose directory region is fully readable
loads successfully into an archive whose directory length equals the
header count field. -/
theorem load_directory_length (file : List Nat)
    (h12 : 12 ≤ file.length)
    (hc : 0 ≤ headerCount file)
    (hread : ∀ i, i < countN file → entryOffset (dirLocN file) i + 16 ≤ file.length) :
    ∃ w : Wad, from_file_path file = .ok w ∧
      (w.directory.length : Int) = headerCount file := by
  rw [from_file_path_eq file h12,
    loadDir_ok file (dirLocN file) (countN file) 0 (fun j hj => by simpa using hread j hj)]
  refine ⟨⟨file.take 4, _⟩, rfl, ?_⟩
  show (((List.range (countN file)).map _).length : Int) = headerCount file
  rw [List.length_map, List.length_range]
  have hr := headerCount_range file
  unfold countN u64ofI32
  omega

/-- Witness for `load_directory_length` on a concrete 28-byte archive
with one directory entry. -/
def demoFile : List Nat :=
  [87, 65, 68, 33, 1, 0, 0, 0, 12, 0, 0, 0,
   28, 0, 0, 0, 0, 0, 0, 0, 69, 49, 77, 49, 0, 0, 0, 0]

def demoEntry : Entry := ⟨28, 0, 0, 0, 0, 0, [69, 49, 77, 49, 0, 0, 0, 0]⟩

def demoWad : Wad := ⟨[87, 65, 68, 33], [demoEntry]⟩

theorem load_directory_length_witness :
    12 ≤ demoFile.length ∧ 0 ≤ headerCount demoFile ∧
    ∃ w : Wad, from_file_path demoFile = .ok w ∧
      (w.directory.length : Int) = headerCount demoFile :=
  ⟨by decide, by decide,
   load_directory_length demoFile (by decide) (by decide) (by decide)⟩

/-- C2: on a valid archive, the catalog entry at index `i` is decoded
from the 16 bytes at `directory_offset + i * 16` as little-endian
`i32` file position, little-endian `i32` size and 8-byte name, and the
catalog lists the entries in on-disk directory order. -/
theorem load_entries_layout (file : List Nat)
    (h12 : 12 ≤ file.length)
    (_hc : 0 ≤ headerCount file)
    (hread : ∀ i, i < countN file → entryOffset (dirLocN file) i + 16 ≤ file.length) :
    ∃ w : Wad, from_file_path file = .ok w ∧
      ∀ i, i < countN file →
        w.directory[i]? = some (specEntry file (dirLocN file) i) := by
  rw [from_file_path_eq file h12,
    loadDir_ok file (dirLocN file) (countN file) 0 (fun j hj => by simpa using hread j hj)]
  refine ⟨⟨file.take 4, _⟩, rfl, fun i hi => ?_⟩
  show ((List.range (countN file)).map _)[i]? = _
  rw [List.getElem?_map, List.getElem?_range hi]
  simp

theorem load_entries_layout_witness :
    12 ≤ demoFile.length ∧ 0 ≤ headerCount demoFile ∧
    ∃ w : Wad, from_file_path demoFile = .ok w ∧
      ∀ i, i < countN demoFile →
        w.directory[i]? = some (specEntry demoFile (dirLocN demoFile) i) :=
  ⟨by decide, by decide,
   load_entries_layout demoFile (by decide) (by decide) (by decide)⟩

/-- C5: a file with at least 12 bytes whose header count field is
negative never loads successfully — the loop bound `count as u64` is
at least `2^64 - 2^32`, some directory read is out of bounds for any
file shorter than `2^63` bytes (the `pread` offset limit), and the
load fails with `FailedToReadDirectory`. -/
theorem load_negative_count_fails (file : List Nat)
    (h12 : 12 ≤ file.length)
    (hneg : headerCount file < 0)
    (hlen : file.length < 9223372036854775808) :
    from_file_path file = .error .FailedToReadDirectory := by
  rw [from_file_path_eq file h12]
  have hr := headerCount_range file
  have hN : 18446744073709551616 - 4294967296 ≤ countN file := by
    unfold countN u64ofI32
    omega
  have hd : dirLocN file < 18446744073709551616 := u64ofI32_lt _
  have hfail : ∃ j, j < countN file ∧
      file.length < entryOffset (dirLocN file) (0 + j) + 16 := by
    by_cases hcase : file.length < dirLocN file + 16
    · refine ⟨0, by omega, ?_⟩
      unfold entryOffset ENTRY_SIZE
      omega
    · refine ⟨file.length / 16 + 1, by omega, ?_⟩
      unfold entryOffset ENTRY_SIZE
      omega
  rw [loadDir_fails file (dirLocN file) (countN file) 0 hfail]

def negFile : List Nat := [87, 65, 68, 33, 255, 255, 255, 255, 12, 0, 0, 0]

theorem load_negative_count_fails_witness :
    12 ≤ negFile.length ∧ headerCount negFile < 0 ∧
    negFile.length < 9223372036854775808 ∧
    from_file_path negFile = .error .FailedToReadDirectory :=
  ⟨by decide, by decide, by decide,
   load_negative_count_fails negFile (by decide) (by decide) (by decide)⟩

/-- C6: the defensive reinterpretation errors are unreachable — for
every input file, the load never returns `CouldNotDecodeHeader` or
`CouldNotDecodeDirectory`, because every buffer handed to the decoders
has exactly the requested size. -/
theorem load_no_decode_errors (file : List Nat) :
    from_file_path file ≠ .error .CouldNotDecodeHeader ∧
    from_file_path file ≠ .error .CouldNotDecodeDirectory := by
  by_cases h12 : 12 ≤ file.length
  · rw [from_file_path_eq file h12]
    cases hld : loadDir file (dirLocN file) 0 (countN file) with
    | error e =>
      have he := loadDir_error_eq file (dirLocN file) (countN file) 0 e hld
      subst he
      refine ⟨fun h => ?_, fun h => ?_⟩
      · injection h with h'
        cases h'
      · injection h with h'
        cases h'
    | ok l =>
      exact ⟨fun h => Except.noConfusion h, fun h => Except.noConfusion h⟩
  · have hh : from_file_path file = .error .FailedToReadHeader := by
      unfold from_file_path
      rw [show readExactAt file 0 12 = none from by
        unfold readExactAt; rw [if_neg (by omega)]]
    rw [hh]
    exact ⟨by decide, by decide⟩

/-- C8: in every archive a successful load returns, each entry has
`real_size` equal to `size`, zero `kind`, zero `compression` and zero
`padding`. -/
theorem load_zero_reserved (file : List Nat) (w : Wad)
    (h : from_file_path file = .ok w) :
    ∀ en ∈ w.directory, en.real_size = en.size ∧ en.kind = 0 ∧
      en.compression = 0 ∧ en.padding = 0 := by
  intro en hen
  by_cases h12 : 12 ≤ file.length
  · rw [from_file_path_eq file h12] at h
    cases hld : loadDir file (dirLocN file) 0 (countN file) with
    | error e =>
      rw [hld] at h
      exact Except.noConfusion h
    | ok l =>
      simp only [hld] at h
      injection h with h'
      rw [← h'] at hen
      obtain ⟨re, hre⟩ := loadDir_mem file _ _ 0 l hld en hen
      subst hre
      exact ⟨rfl, rfl, rfl, rfl⟩
  · unfold from_file_path at h
    rw [show readExactAt file 0 12 = none from by
      unfold readExactAt; rw [if_neg (by omega)]] at h
    exact Except.noConfusion h

theorem load_zero_reserved_witness :
    from_file_path demoFile = .ok demoWad ∧
    demoEntry.real_size = demoEntry.size ∧ demoEntry.kind = 0 ∧
      demoEntry.compression = 0 ∧ demoEntry.padding = 0 :=
  ⟨by decide,
   load_zero_reserved demoFile demoWad (by decide) demoEntry (by decide)⟩

/-- C10: the signature is never validated — replacing the first four
bytes of a loadable file with any four bytes leaves the load
successful, and the archive stores those bytes verbatim as its
signature. -/
theorem load_signature_verbatim (file sig2 : List Nat)
    (h12 : 12 ≤ file.length)
    (hread : ∀ i, i < countN file → entryOffset (dirLocN file) i + 16 ≤ file.length)
    (hs : sig2.length = 4) :
    ∃ w : Wad, from_file_path (sig2 ++ file.drop 4) = .ok w ∧ w.signature = sig2 := by
  have hglen : (sig2 ++ file.drop 4).length = file.length := by
    rw [List.length_append, List.length_drop, hs]
    omega
  have hbyte : ∀ k, 4 ≤ k → byteAt (sig2 ++ file.drop 4) k = byteAt file k := by
    intro k hk
    unfold byteAt
    rw [List.getD_eq_getElem?_getD, List.getD_eq_getElem?_getD,
      List.getElem?_append_right (by omega), hs, List.getElem?_drop]
    have : 4 + (k - 4) = k := by omega
    rw [this]
  have hcount : headerCount (sig2 ++ file.drop 4) = headerCount file := by
    unfold headerCount
    rw [hbyte 4 (by omega), hbyte 5 (by omega), hbyte 6 (by omega), hbyte 7 (by omega)]
  have hdir : headerDirLoc (sig2 ++ file.drop 4) = headerDirLoc file := by
    unfold headerDirLoc
    rw [hbyte 8 (by omega), hbyte 9 (by omega), hbyte 10 (by omega), hbyte 11 (by omega)]
  have hcountN : countN (sig2 ++ file.drop 4) = countN file := by
    unfold countN
    rw [hcount]
  have hdirN : dirLocN (sig2 ++ file.drop 4) = dirLocN file := by
    unfold dirLocN
    rw [hdir]
  rw [from_file_path_eq (sig2 ++ file.drop 4) (by omega), hcountN, hdirN,
    loadDir_ok (sig2 ++ file.drop 4) (dirLocN file) (countN file) 0 (fun j hj => by
      rw [hglen]
      simpa using hread j hj)]
  refine ⟨⟨(sig2 ++ file.drop 4).take 4, _⟩, rfl, ?_⟩
  show (sig2 ++ file.drop 4).take 4 = sig2
  rw [← hs, List.take_left]

theorem load_signature_verbatim_witness :
    12 ≤ demoFile.length ∧ ([0, 0, 0, 0] : List Nat).length = 4 ∧
    ∃ w : Wad, from_file_path ([0, 0, 0, 0] ++ demoFile.drop 4) = .ok w ∧
      w.signature = [0, 0, 0, 0] :=
  ⟨by decide, by decide,
   load_signature_verbatim demoFile [0, 0, 0, 0] (by decide) (by decide) (by decide)⟩

end WadRs
